import Mathlib

/-!
Shallow embedding of the LP-store profitability pipeline from the EveOnline
repository (main sources: allmarkets+global.py and app/app.py, with the
variant material-requirement check from test2.py).

Conventions of the embedding:
  * Python numbers (prices, money) are modelled as rationals, counts as
    integers; overflow is not a concern for Python integers/floats here.
  * A Python dict field that may be absent and is read with
    d.get(key, default) is modelled as an Option together with getD.
  * A network fetch is modelled as an Option of the decoded payload:
    none stands for a requests.exceptions.RequestException (timeout,
    non-2xx, malformed body), in which case the except-branch of the
    source runs (a bare pass keeping the initial values).
  * the float infinity sentinel (the initial value of lowest_price in
    get_market_stats) is modelled as the top element of WithTop Rat.
-/

namespace EveLP

/-- One entry of the required_items list of an offer (ESI JSON
object); only the type_id field is read by the scripts, via item.get. -/
structure ReqItem where
  type_id : Option Nat
  req_quantity : Nat
  deriving DecidableEq, Repr

/-- One LP-store offer record as returned by the ESI loyalty endpoint;
fields read with offer.get(...) are Options. -/
structure Offer where
  type_id : Nat
  lp_cost : Option Int
  isk_cost : Option Rat
  quantity : Option Int
  required_items : List ReqItem
  deriving DecidableEq, Repr

/-- Type ID for ISK, the base currency pseudo-item (constant TYPE_ID_ISK). -/
def TYPE_ID_ISK : Nat := 58

/-- is_material_required from allmarkets+global.py (and app/app.py):
scan required_items, return True at the first entry whose type_id
differs from the ISK type id, else False. -/
def is_material_required (offer : Offer) : Bool :=
  offer.required_items.any (fun item => item.type_id ≠ some TYPE_ID_ISK)

/-- is_material_required from test2.py: more than one required entry
means material; exactly one entry means material unless it is ISK;
otherwise no material. -/
def test2_is_material_required (offer : Offer) : Bool :=
  match offer.required_items with
  | [] => false
  | [item] => item.type_id ≠ some TYPE_ID_ISK
  | _ :: _ :: _ => true

/-- The offer-filtering loop of main in allmarkets+global.py (lines
223-233): skip offers whose lp_cost (default 0) is zero, skip offers
requiring material, append the rest in order. -/
def filter_offers (offers : List Offer) : List Offer :=
  offers.foldl
    (fun acc offer =>
      if offer.lp_cost.getD 0 = 0 then acc
      else if is_material_required offer then acc
      else acc ++ [offer])
    []

/-- The acceptance test of the filtering loop, as a single predicate. -/
def acceptOffer (offer : Offer) : Bool :=
  !(offer.lp_cost.getD 0 == 0) && !(is_material_required offer)

lemma filter_offers_foldl (offers : List Offer) (acc : List Offer) :
    offers.foldl
      (fun acc offer =>
        if offer.lp_cost.getD 0 = 0 then acc
        else if is_material_required offer then acc
        else acc ++ [offer]) acc
      = acc ++ offers.filter acceptOffer := by
  induction offers generalizing acc with
  | nil => simp
  | cons o os ih =>
    by_cases h0 : o.lp_cost.getD 0 = 0
    · simp [List.foldl_cons, h0, ih, List.filter_cons, acceptOffer]
    · by_cases hm : is_material_required o
      · simp [List.foldl_cons, h0, hm, ih, List.filter_cons, acceptOffer]
      · simp [List.foldl_cons, h0, hm, ih, List.filter_cons, acceptOffer]

/-- The filtering loop is exactly a List.filter by the acceptance test. -/
lemma filter_offers_eq_filter (offers : List Offer) :
    filter_offers offers = offers.filter acceptOffer := by
  simpa using filter_offers_foldl offers []

lemma acceptOffer_iff (offer : Offer) :
    acceptOffer offer = true ↔
      ((∃ c, offer.lp_cost = some c ∧ c ≠ 0) ∧
        ∀ item ∈ offer.required_items, item.type_id = some TYPE_ID_ISK) := by
  constructor
  · intro h
    rw [acceptOffer, Bool.and_eq_true] at h
    obtain ⟨h0, hm⟩ := h
    simp only [Bool.not_eq_true', beq_eq_false_iff_ne, ne_eq] at h0
    constructor
    · cases hc : offer.lp_cost with
      | none => exact absurd (by simp [hc]) h0
      | some c =>
        refine ⟨c, rfl, ?_⟩
        intro rfl0
        exact h0 (by simp [hc, rfl0])
    · intro item hmem
      rw [Bool.not_eq_true'] at hm
      rw [is_material_required, List.any_eq_false] at hm
      have := hm item hmem
      simpa using this
  · rintro ⟨⟨c, hc, hc0⟩, hall⟩
    rw [acceptOffer, Bool.and_eq_true]
    refine ⟨?_, ?_⟩
    · simp [hc, hc0]
    · rw [Bool.not_eq_true']
      rw [is_material_required, List.any_eq_false]
      intro item hmem
      simpa using hall item hmem

/-! ## Market stats layer (get_market_stats of allmarkets+global.py, lines 50-101) -/

/-- Window length for the recent-volume sum (constant VOLUME_DAYS). -/
def VOLUME_DAYS : Int := 10

/-- One daily record of the region price history endpoint.  Dates are
modelled as integer day numbers (datetime comparisons reduce to integer
comparisons of days). -/
structure Day where
  date : Int
  average : Rat
  lowest : Rat
  volume : Int
  deriving DecidableEq, Repr

/-- One entry of the region order-book endpoint; the scripts read only
the price field, via order.get with a default. -/
structure Order where
  price : Option Rat
  deriving DecidableEq, Repr

/-- The four values returned by get_market_stats.  lowest_price is a
WithTop Rat because the source initialises it to the float infinity
sentinel and can return that sentinel. -/
structure Snapshot where
  avg_price : Rat
  lowest_price : WithTop Rat
  current_sell_price : Rat
  volume_10d : Int
  deriving DecidableEq, Repr

/-- Membership of a daily record in the trailing 30-day window
(date_obj >= thirty_days_ago). -/
def inWindow30 (now : Int) (day : Day) : Bool := now - 30 ≤ day.date

/-- Membership of a daily record in the trailing VOLUME_DAYS window. -/
def inWindow10 (now : Int) (day : Day) : Bool := now - VOLUME_DAYS ≤ day.date

/-- The history loop of get_market_stats: one pass over the daily
records appending average and lowest for 30-day records and summing
volume for 10-day records; returns (avg_prices, lowest_daily_prices,
volume_10d). -/
def historyScan (now : Int) : List Day → List Rat × List Rat × Int
  | [] => ([], [], 0)
  | day :: rest =>
    let acc := historyScan now rest
    ((if inWindow30 now day then day.average :: acc.1 else acc.1),
     (if inWindow30 now day then day.lowest :: acc.2.1 else acc.2.1),
     (if inWindow10 now day then day.volume + acc.2.2 else acc.2.2))

/-- The sell-price comprehension of get_market_stats: orders whose
price (default 0) is positive contribute their price.  (The source maps
a passing order to its price with an infinite default; the guard means
the price is present there, so the default never fires.) -/
def sellPrices (data : List Order) : List Rat :=
  data.filterMap (fun order =>
    match order.price with
    | some p => if 0 < p then some p else none
    | none => none)

/-- get_market_stats, with each of the two fetches modelled as an
Option payload: none is a requests.exceptions.RequestException, running
the bare except/pass branch that keeps the initial values: zero for avg_price,
volume_10d and current_sell_price, float infinity for lowest_price. -/
def get_market_stats (now : Int) (history : Option (List Day))
    (orders : Option (List Order)) : Snapshot :=
  let hist :=
    match history with
    | none => ((0 : Rat), (⊤ : WithTop Rat), (0 : Int))
    | some history_data =>
      let scan := historyScan now history_data
      if scan.1 ≠ [] then
        (scan.1.sum / (scan.1.length : Rat), scan.2.1.minimum, scan.2.2)
      else
        ((0 : Rat), ((0 : Rat) : WithTop Rat), scan.2.2)
  let current_sell_price :=
    match orders with
    | none => (0 : Rat)
    | some data =>
      match sellPrices data with
      | [] => (0 : Rat)
      | p :: ps => ps.foldl min p
  ⟨hist.1, hist.2.1, current_sell_price, hist.2.2⟩

/-- The single history pass computes exactly the filtered projections:
30-day averages, 30-day lows, and the summed 10-day volume. -/
lemma historyScan_eq (now : Int) (hd : List Day) :
    historyScan now hd =
      ((hd.filter (inWindow30 now)).map Day.average,
       (hd.filter (inWindow30 now)).map Day.lowest,
       ((hd.filter (inWindow10 now)).map Day.volume).sum) := by
  induction hd with
  | nil => simp [historyScan]
  | cons day rest ih =>
    by_cases h30 : inWindow30 now day <;> by_cases h10 : inWindow10 now day <;>
      simp [historyScan, ih, List.filter_cons, h30, h10]

lemma foldl_min_mem (ps : List Rat) (p : Rat) : ps.foldl min p ∈ p :: ps := by
  induction ps generalizing p with
  | nil => simp
  | cons q ps ih =>
    have h := ih (min p q)
    rcases List.mem_cons.mp h with h1 | h1
    · rcases min_choice p q with hm | hm <;> rw [List.foldl_cons, h1, hm] <;> simp
    · simp [List.foldl_cons, h1]

lemma foldl_min_le (ps : List Rat) :
    ∀ (p : Rat), ∀ x ∈ p :: ps, ps.foldl min p ≤ x := by
  induction ps with
  | nil =>
    intro p x hx
    simp at hx
    simp [hx]
  | cons q ps ih =>
    intro p x hx
    have hbase : (q :: ps).foldl min p = ps.foldl min (min p q) := rfl
    have hmin : ps.foldl min (min p q) ≤ min p q := ih (min p q) _ (by simp)
    rcases List.mem_cons.mp hx with h1 | h1
    · rw [hbase, h1]
      exact le_trans hmin (min_le_left _ _)
    · rcases List.mem_cons.mp h1 with h2 | h2
      · rw [hbase, h2]
        exact le_trans hmin (min_le_right _ _)
      · rw [hbase]
        exact ih (min p q) x (by simp [h2])

/-! ## Profitability calculator and main loop (allmarkets+global.py, lines 253-309) -/

/-- One result row, the dict built at lines 285-298 of the source. -/
structure Result where
  market : String
  item_name : String
  isk_per_lp : Rat
  isk_per_lp_current : Rat
  isk_profit : Rat
  lp_cost : Int
  isk_base_cost : Rat
  sell_price_avg : Rat
  sell_price_low : WithTop Rat
  sell_price_current : Rat
  volume_10d : Int
  quantity : Int
  deriving DecidableEq, Repr

/-- The per-offer computation of the main loop: produce a result dict
when avg_price > 0 or current_sell_price > 0, else nothing.  lp_cost
and isk_base_cost are the values stashed by the filtering loop
(offer.get defaults 0); quantity defaults to 1.  -/
def computeResult (market_name item_name : String) (offer : Offer)
    (s : Snapshot) : Option Result :=
  let lp_cost := offer.lp_cost.getD 0
  let isk_base_cost := offer.isk_cost.getD 0
  let quantity := offer.quantity.getD 1
  if 0 < s.avg_price ∨ 0 < s.current_sell_price then
    let price_to_use_avg := if 0 < s.avg_price then s.avg_price else s.current_sell_price
    let total_sell_value_avg := price_to_use_avg * (quantity : Rat)
    let isk_profit_avg := total_sell_value_avg - isk_base_cost
    let isk_per_lp_avg := if 0 < lp_cost then isk_profit_avg / (lp_cost : Rat) else 0
    let total_sell_value_current := s.current_sell_price * (quantity : Rat)
    let isk_profit_current := total_sell_value_current - isk_base_cost
    let isk_per_lp_current := if 0 < lp_cost then isk_profit_current / (lp_cost : Rat) else 0
    some ⟨market_name, item_name, isk_per_lp_avg, isk_per_lp_current, isk_profit_avg,
      lp_cost, isk_base_cost, s.avg_price, s.lowest_price, s.current_sell_price,
      s.volume_10d, quantity⟩
  else none

/-- What one offer contributes to the result lists: the computed row
when it exists and its isk_per_lp is positive, else nothing (the
`if isk_per_lp_avg > 0` guard at line 301). -/
def keepOf (market_name item_name : String) (offer : Offer) (s : Snapshot) :
    List Result :=
  match computeResult market_name item_name offer s with
  | some r => if 0 < r.isk_per_lp then [r] else []
  | none => []

/-- The body of the inner offer loop: compute, and on a positive
isk_per_lp append the same row to both current_market_results (first
component) and global_results (second component). -/
def innerStep (market_name : String) (item_names : Nat → String)
    (stats : Nat → Nat → Snapshot) (region_id : Nat)
    (acc : List Result × List Result) (offer : Offer) :
    List Result × List Result :=
  match computeResult market_name (item_names offer.type_id) offer
      (stats offer.type_id region_id) with
  | some r => if 0 < r.isk_per_lp then (acc.1 ++ [r], acc.2 ++ [r]) else acc
  | none => acc

/-- The outer loop over MARKETS.items(): per market, run the inner
offer loop starting from an empty current_market_results and the
global_results accumulated so far; record the built per-market list.
(Claim C10 is about the lists as built, before the later sort.) -/
def run_market_analysis (item_names : Nat → String)
    (stats : Nat → Nat → Snapshot) (filtered_offers : List Offer)
    (markets : List (String × Nat)) :
    List (String × List Result) × List Result :=
  markets.foldl
    (fun acc m =>
      let inner := filtered_offers.foldl (innerStep m.1 item_names stats m.2)
        ([], acc.2)
      (acc.1 ++ [(m.1, inner.1)], inner.2))
    ([], [])

/-- The per-market list the inner loop builds, written as a direct
concatenation of per-offer contributions. -/
def builtList (market_name : String) (item_names : Nat → String)
    (stats : Nat → Nat → Snapshot) (region_id : Nat) :
    List Offer → List Result
  | [] => []
  | offer :: rest =>
    keepOf market_name (item_names offer.type_id) offer
        (stats offer.type_id region_id)
      ++ builtList market_name item_names stats region_id rest

lemma innerStep_eq (market_name : String) (item_names : Nat → String)
    (stats : Nat → Nat → Snapshot) (region_id : Nat)
    (acc : List Result × List Result) (offer : Offer) :
    innerStep market_name item_names stats region_id acc offer =
      (acc.1 ++ keepOf market_name (item_names offer.type_id) offer
          (stats offer.type_id region_id),
       acc.2 ++ keepOf market_name (item_names offer.type_id) offer
          (stats offer.type_id region_id)) := by
  rw [innerStep, keepOf]
  cases h : computeResult market_name (item_names offer.type_id) offer
      (stats offer.type_id region_id) with
  | none => simp
  | some r =>
    by_cases hr : 0 < r.isk_per_lp
    · simp [hr]
    · simp [hr]

lemma innerFold_eq (market_name : String) (item_names : Nat → String)
    (stats : Nat → Nat → Snapshot) (region_id : Nat)
    (offers : List Offer) (c g : List Result) :
    offers.foldl (innerStep market_name item_names stats region_id) (c, g) =
      (c ++ builtList market_name item_names stats region_id offers,
       g ++ builtList market_name item_names stats region_id offers) := by
  induction offers generalizing c g with
  | nil => simp [builtList]
  | cons offer rest ih =>
    rw [List.foldl_cons, innerStep_eq, ih, builtList]
    simp

/-- The per-market built list of one market entry. -/
def perMarket (item_names : Nat → String) (stats : Nat → Nat → Snapshot)
    (offers : List Offer) (m : String × Nat) : List Result :=
  builtList m.1 item_names stats m.2 offers

lemma run_market_analysis_eq (item_names : Nat → String)
    (stats : Nat → Nat → Snapshot) (offers : List Offer)
    (markets : List (String × Nat)) :
    run_market_analysis item_names stats offers markets =
      (markets.map (fun m => (m.1, perMarket item_names stats offers m)),
       (markets.map (perMarket item_names stats offers)).flatten) := by
  rw [run_market_analysis]
  suffices h : ∀ (accL : List (String × List Result)) (g : List Result),
      markets.foldl
        (fun acc m =>
          let inner := offers.foldl (innerStep m.1 item_names stats m.2)
            ([], acc.2)
          (acc.1 ++ [(m.1, inner.1)], inner.2)) (accL, g) =
        (accL ++ markets.map (fun m => (m.1, perMarket item_names stats offers m)),
         g ++ (markets.map (perMarket item_names stats offers)).flatten) by
    simpa using h [] []
  induction markets with
  | nil => intro accL g; simp
  | cons m ms ih =>
    intro accL g
    rw [List.foldl_cons]
    simp only [innerFold_eq] at ih ⊢
    rw [ih]
    simp [perMarket, List.append_assoc]

/-! ## Aggregator / ranker (print_global_results_detailed in
allmarkets+global.py lines 167-209, process_global in app/app.py
lines 234-248) -/

/-- Profitability thresholds of the liquidity views. -/
def MIN_ISK_PER_LP_FILTER_LOW : Rat := 1000

/-- Threshold of the high-liquidity view. -/
def MIN_ISK_PER_LP_FILTER_HIGH : Rat := 2000

/-- Result-count caps of the global views. -/
def TOP_N_GLOBAL : Nat := 25

/-- Result-count cap of the volume-filtered views. -/
def TOP_N_VOLUME_FILTER : Nat := 25

/-- The two sort keys the global views use (the only values ever passed
for sort_key). -/
inductive SortKey where
  | ilp
  | vol
  deriving DecidableEq, Repr

/-- The numeric value the chosen sort key reads off a result row
(r[sort_key], volumes compared as numbers). -/
def keyVal : SortKey → Result → Rat
  | SortKey.ilp, r => r.isk_per_lp
  | SortKey.vol, r => (r.volume_10d : Rat)

/-- Assignment d[key] = v on an insertion-ordered dict, modelled as an
association list: replace in place when the key exists, append
otherwise. -/
def updAssoc (key : String) (v : Result) :
    List (String × Result) → List (String × Result)
  | [] => [(key, v)]
  | (k, w) :: rest =>
    if k = key then (key, v) :: rest else (k, w) :: updAssoc key v rest

/-- Dict lookup d.get(key). -/
def lookupA (key : String) : List (String × Result) → Option Result
  | [] => none
  | (k, w) :: rest => if k = key then some w else lookupA key rest

/-- One iteration of the dedup loop: if the item name is absent, or the
new row strictly improves the stored row on the sort key, store the new
row. -/
def dedupeStep (sk : SortKey) (m : List (String × Result)) (r : Result) :
    List (String × Result) :=
  match lookupA r.item_name m with
  | none => updAssoc r.item_name r m
  | some b => if keyVal sk b < keyVal sk r then updAssoc r.item_name r m else m

/-- The dedup loop over the filtered results (unique_results of the
source). -/
def dedupe (sk : SortKey) (rs : List Result) : List (String × Result) :=
  rs.foldl (dedupeStep sk) []

/-- The pairwise choice the dedup loop makes: keep the incumbent unless
the newcomer is strictly better. -/
def pick (sk : SortKey) (b : Option Result) (r : Result) : Option Result :=
  match b with
  | none => some r
  | some b => if keyVal sk b < keyVal sk r then some r else some b

/-- Linear scan of a group with a starting incumbent. -/
def bestFrom (sk : SortKey) (b : Option Result) (rs : List Result) :
    Option Result :=
  rs.foldl (pick sk) b

/-- The representative the dedup loop keeps for one group. -/
def bestOf (sk : SortKey) (rs : List Result) : Option Result :=
  bestFrom sk none rs

lemma lookupA_updAssoc (k name : String) (v : Result)
    (m : List (String × Result)) :
    lookupA name (updAssoc k v m) =
      if k = name then some v else lookupA name m := by
  induction m with
  | nil =>
    by_cases h : k = name <;> simp [updAssoc, lookupA, h]
  | cons p rest ih =>
    obtain ⟨k1, w⟩ := p
    by_cases h1 : k1 = k
    · subst h1
      by_cases h2 : k1 = name <;> simp [updAssoc, lookupA, h2]
    · by_cases h2 : k1 = name
      · subst h2
        have hk : ¬ k = k1 := fun h => h1 h.symm
        simp [updAssoc, lookupA, h1, hk]
      · simp [updAssoc, lookupA, h1, h2, ih]

lemma lookupA_dedupeStep_ne (sk : SortKey) (m : List (String × Result))
    (r : Result) (name : String) (h : r.item_name ≠ name) :
    lookupA name (dedupeStep sk m r) = lookupA name m := by
  rw [dedupeStep]
  cases hb : lookupA r.item_name m with
  | none => simp [lookupA_updAssoc, h]
  | some b =>
    by_cases hlt : keyVal sk b < keyVal sk r
    · simp [hlt, lookupA_updAssoc, h]
    · simp [hlt]

lemma lookupA_dedupeStep_eq (sk : SortKey) (m : List (String × Result))
    (r : Result) :
    lookupA r.item_name (dedupeStep sk m r) =
      pick sk (lookupA r.item_name m) r := by
  rw [dedupeStep]
  cases hb : lookupA r.item_name m with
  | none => simp [pick, lookupA_updAssoc]
  | some b =>
    by_cases hlt : keyVal sk b < keyVal sk r
    · simp [pick, hlt, lookupA_updAssoc]
    · simp [pick, hlt, hb]

/-- The dedup loop, observed through lookup of one item name, is the
linear best-of scan of that name group. -/
lemma lookupA_foldl_dedupeStep (sk : SortKey) (rs : List Result) :
    ∀ (m : List (String × Result)) (name : String),
    lookupA name (rs.foldl (dedupeStep sk) m) =
      bestFrom sk (lookupA name m)
        (rs.filter (fun r => r.item_name == name)) := by
  induction rs with
  | nil => intro m name; simp [bestFrom]
  | cons r rest ih =>
    intro m name
    rw [List.foldl_cons, ih]
    by_cases h : r.item_name = name
    · subst h
      rw [lookupA_dedupeStep_eq]
      simp [List.filter_cons, bestFrom]
    · rw [lookupA_dedupeStep_ne sk m r name h]
      have : (r.item_name == name) = false := by simpa using h
      simp [List.filter_cons, this]

lemma lookupA_dedupe (sk : SortKey) (rs : List Result) (name : String) :
    lookupA name (dedupe sk rs) =
      bestOf sk (rs.filter (fun r => r.item_name == name)) := by
  rw [dedupe, lookupA_foldl_dedupeStep]
  simp [lookupA, bestOf]

/-- Where the best-of scan lands: the first element of the group whose
key value strictly exceeds the incumbent and everything before it, with
nothing after it strictly better. -/
lemma bestFrom_spec (sk : SortKey) :
    ∀ (g : List Result) (b r : Result),
    bestFrom sk (some b) g = some r →
    (r = b ∧ ∀ x ∈ g, keyVal sk x ≤ keyVal sk b) ∨
    (∃ l₁ l₂, g = l₁ ++ r :: l₂ ∧ keyVal sk b < keyVal sk r ∧
      (∀ x ∈ l₁, keyVal sk x < keyVal sk r) ∧
      (∀ x ∈ l₂, keyVal sk x ≤ keyVal sk r)) := by
  intro g
  induction g with
  | nil =>
    intro b r h
    rw [bestFrom] at h
    simp at h
    exact Or.inl ⟨h.symm, by simp⟩
  | cons y g ih =>
    intro b r h
    rw [bestFrom, List.foldl_cons] at h
    by_cases hy : keyVal sk b < keyVal sk y
    · rw [show pick sk (some b) y = some y by simp [pick, hy]] at h
      rcases ih y r h with ⟨rfl, hall⟩ | ⟨l₁, l₂, hdec, hby, hl₁, hl₂⟩
      · refine Or.inr ⟨[], g, by simp, hy, by simp, hall⟩
      · refine Or.inr ⟨y :: l₁, l₂, by simp [hdec], lt_trans hy hby, ?_, hl₂⟩
        intro x hx
        rcases List.mem_cons.mp hx with h1 | h1
        · rw [h1]; exact hby
        · exact hl₁ x h1
    · rw [show pick sk (some b) y = some b by simp [pick, hy]] at h
      rcases ih b r h with ⟨rfl, hall⟩ | ⟨l₁, l₂, hdec, hby, hl₁, hl₂⟩
      · refine Or.inl ⟨rfl, ?_⟩
        intro x hx
        rcases List.mem_cons.mp hx with h1 | h1
        · rw [h1]; exact le_of_not_lt hy
        · exact hall x h1
      · refine Or.inr ⟨y :: l₁, l₂, by simp [hdec], hby, ?_, hl₂⟩
        intro x hx
        rcases List.mem_cons.mp hx with h1 | h1
        · rw [h1]; exact lt_of_le_of_lt (le_of_not_lt hy) hby
        · exact hl₁ x h1

/-- The kept representative is the first element of its group attaining
the maximal key value. -/
lemma bestOf_spec (sk : SortKey) (g : List Result) (r : Result)
    (h : bestOf sk g = some r) :
    ∃ l₁ l₂, g = l₁ ++ r :: l₂ ∧
      (∀ x ∈ l₁, keyVal sk x < keyVal sk r) ∧
      (∀ x ∈ l₂, keyVal sk x ≤ keyVal sk r) := by
  cases g with
  | nil => exact absurd h (by rw [bestOf, bestFrom]; simp)
  | cons y g =>
    rw [bestOf, bestFrom, List.foldl_cons,
      show pick sk none y = some y from rfl] at h
    rcases bestFrom_spec sk g y r h with ⟨rfl, hall⟩ | ⟨l₁, l₂, hdec, hby, hl₁, hl₂⟩
    · exact ⟨[], g, by simp, by simp, hall⟩
    · refine ⟨y :: l₁, l₂, by simp [hdec], ?_, hl₂⟩
      intro x hx
      rcases List.mem_cons.mp hx with h1 | h1
      · rw [h1]; exact hby
      · exact hl₁ x h1

lemma bestOf_ne_none (sk : SortKey) (g : List Result) (hg : g ≠ []) :
    ∃ r, bestOf sk g = some r := by
  cases g with
  | nil => exact absurd rfl hg
  | cons y g =>
    clear hg
    rw [bestOf, bestFrom, List.foldl_cons,
      show pick sk none y = some y from rfl]
    induction g generalizing y with
    | nil => exact ⟨y, rfl⟩
    | cons z g ih =>
      rw [List.foldl_cons]
      by_cases h : keyVal sk y < keyVal sk z
      · rw [show pick sk (some y) z = some z by simp [pick, h]]
        exact ih z
      · rw [show pick sk (some y) z = some y by simp [pick, h]]
        exact ih y

lemma mem_updAssoc (k : String) (v : Result) (m : List (String × Result))
    (p : String × Result) (h : p ∈ updAssoc k v m) :
    p = (k, v) ∨ p ∈ m := by
  induction m with
  | nil => simpa [updAssoc] using h
  | cons q rest ih =>
    obtain ⟨k1, w⟩ := q
    by_cases h1 : k1 = k
    · subst h1
      rw [updAssoc] at h
      simp only [if_pos rfl] at h
      rcases List.mem_cons.mp h with h2 | h2
      · exact Or.inl h2
      · exact Or.inr (List.mem_cons_of_mem _ h2)
    · rw [updAssoc] at h
      simp only [if_neg h1] at h
      rcases List.mem_cons.mp h with h2 | h2
      · exact Or.inr (h2 ▸ List.mem_cons_self _ _)
      · rcases ih h2 with h3 | h3
        · exact Or.inl h3
        · exact Or.inr (List.mem_cons_of_mem _ h3)

lemma mem_dedupeStep (sk : SortKey) (m : List (String × Result)) (r : Result)
    (p : String × Result) (h : p ∈ dedupeStep sk m r) :
    p = (r.item_name, r) ∨ p ∈ m := by
  cases hb : lookupA r.item_name m with
  | none =>
    simp only [dedupeStep, hb] at h
    exact mem_updAssoc _ _ _ _ h
  | some b =>
    simp only [dedupeStep, hb] at h
    by_cases hlt : keyVal sk b < keyVal sk r
    · rw [if_pos hlt] at h
      exact mem_updAssoc _ _ _ _ h
    · rw [if_neg hlt] at h
      exact Or.inr h

/-- Every stored row of the dedup dict came from the input list. -/
lemma mem_dedupe (sk : SortKey) (rs : List Result) (p : String × Result)
    (h : p ∈ dedupe sk rs) : p.2 ∈ rs := by
  rw [dedupe] at h
  suffices hgen : ∀ (rs : List Result) (m : List (String × Result))
      (p : String × Result), p ∈ rs.foldl (dedupeStep sk) m →
      p ∈ m ∨ p.2 ∈ rs by
    rcases hgen rs [] p h with h1 | h1
    · simp at h1
    · exact h1
  intro rs
  induction rs with
  | nil => intro m p h; exact Or.inl (by simpa using h)
  | cons r rest ih =>
    intro m p h
    rw [List.foldl_cons] at h
    rcases ih (dedupeStep sk m r) p h with h1 | h1
    · rcases mem_dedupeStep sk m r p h1 with h2 | h2
      · exact Or.inr (by rw [h2]; simp)
      · exact Or.inl h2
    · exact Or.inr (List.mem_cons_of_mem _ h1)

lemma lookupA_eq_none_iff (name : String) (m : List (String × Result)) :
    lookupA name m = none ↔ name ∉ m.map Prod.fst := by
  induction m with
  | nil => simp [lookupA]
  | cons p rest ih =>
    obtain ⟨k, w⟩ := p
    by_cases h : k = name
    · subst h
      simp [lookupA]
    · rw [lookupA, if_neg h, ih]
      rw [List.map_cons, List.mem_cons]
      constructor
      · intro hn hc
        rcases hc with hc | hc
        · exact h hc.symm
        · exact hn hc
      · intro hn hc
        exact hn (Or.inr hc)

lemma keys_updAssoc_mem (k : String) (v : Result) (m : List (String × Result))
    (hk : k ∈ m.map Prod.fst) :
    (updAssoc k v m).map Prod.fst = m.map Prod.fst := by
  induction m with
  | nil => simp at hk
  | cons p rest ih =>
    obtain ⟨k1, w⟩ := p
    by_cases h1 : k1 = k
    · subst h1
      simp [updAssoc]
    · rw [updAssoc, if_neg h1]
      have hk2 : k ∈ rest.map Prod.fst := by
        rw [List.map_cons, List.mem_cons] at hk
        rcases hk with h2 | h2
        · exact absurd h2.symm h1
        · exact h2
      simp [ih hk2]

lemma keys_updAssoc_not_mem (k : String) (v : Result)
    (m : List (String × Result)) (hk : k ∉ m.map Prod.fst) :
    (updAssoc k v m).map Prod.fst = m.map Prod.fst ++ [k] := by
  induction m with
  | nil => simp [updAssoc]
  | cons p rest ih =>
    obtain ⟨k1, w⟩ := p
    have h1 : k1 ≠ k := by
      intro h
      exact hk (by simp [h])
    have hk2 : k ∉ rest.map Prod.fst := fun h => hk (by simp [h])
    rw [updAssoc, if_neg h1]
    simp [ih hk2]

/-- The dedup dict keeps exactly one entry per item name. -/
lemma dedupe_keys_nodup (sk : SortKey) (rs : List Result) :
    ((dedupe sk rs).map Prod.fst).Nodup := by
  rw [dedupe]
  suffices hgen : ∀ (rs : List Result) (m : List (String × Result)),
      (m.map Prod.fst).Nodup → ((rs.foldl (dedupeStep sk) m).map Prod.fst).Nodup by
    exact hgen rs [] (by simp)
  intro rs
  induction rs with
  | nil => intro m hm; simpa using hm
  | cons r rest ih =>
    intro m hm
    rw [List.foldl_cons]
    refine ih _ ?_
    cases hb : lookupA r.item_name m with
    | none =>
      have habs := (lookupA_eq_none_iff _ _).mp hb
      simp only [dedupeStep, hb]
      rw [keys_updAssoc_not_mem _ _ _ habs, List.nodup_append]
      refine ⟨hm, List.nodup_singleton _, ?_⟩
      intro a ha hb2
      rw [List.mem_singleton] at hb2
      subst hb2
      exact habs ha
    | some b =>
      simp only [dedupeStep, hb]
      by_cases hlt : keyVal sk b < keyVal sk r
      · rw [if_pos hlt]
        have hmem : r.item_name ∈ m.map Prod.fst := by
          by_contra hn
          rw [(lookupA_eq_none_iff _ _).mpr hn] at hb
          exact Option.noConfusion hb
        rw [keys_updAssoc_mem _ _ _ hmem]
        exact hm
      · rw [if_neg hlt]
        exact hm

/-! ## Stable descending sort (list.sort(key=..., reverse=True)) -/

/-- Insertion of a row into an already-ranked suffix: pass over strictly
larger keys, stop at the first key not larger (so a row never moves past
an equal-key row that came later in the scan). -/
def insertDesc (key : Result → Rat) (r : Result) : List Result → List Result
  | [] => [r]
  | x :: xs =>
    if key r < key x then x :: insertDesc key r xs else r :: x :: xs

/-- Stable sort by a numeric key, descending: the semantics of
results_to_print.sort(key=lambda x: x[sort_key], reverse=True), whose
sort is stable and whose reverse flag flips comparisons without
disturbing equal elements. -/
def sortDesc (key : Result → Rat) : List Result → List Result
  | [] => []
  | x :: xs => insertDesc key x (sortDesc key xs)

lemma insertDesc_perm (key : Result → Rat) (r : Result) (l : List Result) :
    List.Perm (insertDesc key r l) (r :: l) := by
  induction l with
  | nil => simp [insertDesc]
  | cons x xs ih =>
    rw [insertDesc]
    by_cases h : key r < key x
    · rw [if_pos h]
      exact List.Perm.trans (List.Perm.cons x ih) (List.Perm.swap r x xs)
    · rw [if_neg h]

lemma sortDesc_perm (key : Result → Rat) (l : List Result) :
    List.Perm (sortDesc key l) l := by
  induction l with
  | nil => simp [sortDesc]
  | cons x xs ih =>
    exact List.Perm.trans (insertDesc_perm key x (sortDesc key xs))
      (List.Perm.cons x ih)

lemma insertDesc_pairwise (key : Result → Rat) (r : Result) (l : List Result)
    (hl : l.Pairwise (fun a b => key b ≤ key a)) :
    (insertDesc key r l).Pairwise (fun a b => key b ≤ key a) := by
  induction l with
  | nil => simp [insertDesc]
  | cons x xs ih =>
    rw [List.pairwise_cons] at hl
    rw [insertDesc]
    by_cases h : key r < key x
    · rw [if_pos h]
      rw [List.pairwise_cons]
      refine ⟨?_, ih hl.2⟩
      intro y hy
      have hy2 := (insertDesc_perm key r xs).mem_iff.mp hy
      rcases List.mem_cons.mp hy2 with h1 | h1
      · rw [h1]; exact le_of_lt h
      · exact hl.1 y h1
    · rw [if_neg h]
      rw [List.pairwise_cons]
      refine ⟨?_, List.pairwise_cons.mpr hl⟩
      intro y hy
      rcases List.mem_cons.mp hy with h1 | h1
      · rw [h1]; exact le_of_not_lt h
      · exact le_trans (hl.1 y h1) (le_of_not_lt h)

/-- The sorted output is ranked: keys are non-increasing. -/
lemma sortDesc_pairwise (key : Result → Rat) (l : List Result) :
    (sortDesc key l).Pairwise (fun a b => key b ≤ key a) := by
  induction l with
  | nil => simp [sortDesc]
  | cons x xs ih => exact insertDesc_pairwise key x (sortDesc key xs) ih

lemma insertDesc_filter (key : Result → Rat) (r : Result) (l : List Result)
    (v : Rat) :
    (insertDesc key r l).filter (fun x => key x == v) =
      if key r == v then r :: l.filter (fun x => key x == v)
      else l.filter (fun x => key x == v) := by
  induction l with
  | nil =>
    by_cases h : key r = v <;> simp [insertDesc, h]
  | cons x xs ih =>
    rw [insertDesc]
    by_cases h : key r < key x
    · rw [if_pos h]
      by_cases hrv : key r = v
      · have hxv : ¬ key x = v := by
          intro hx
          rw [hrv] at h
          rw [hx] at h
          exact lt_irrefl v h
        simp [List.filter_cons, hxv, ih, hrv]
      · by_cases hxv : key x = v <;>
          simp [List.filter_cons, hxv, ih, hrv]
    · rw [if_neg h]
      by_cases hrv : key r = v <;> by_cases hxv : key x = v <;>
        simp [List.filter_cons, hrv, hxv]

/-- Stability: rows with any given key value keep their input order. -/
lemma sortDesc_filter (key : Result → Rat) (l : List Result) (v : Rat) :
    (sortDesc key l).filter (fun x => key x == v) =
      l.filter (fun x => key x == v) := by
  induction l with
  | nil => simp [sortDesc]
  | cons x xs ih =>
    rw [sortDesc, insertDesc_filter]
    by_cases h : key x = v <;> simp [List.filter_cons, h, ih]

/-! ## The global views (process_global of app/app.py, lines 234-248) -/

/-- A row passes the global-view filter when it traded in the recent
window and meets the profitability threshold. -/
def viewFilter (min_lp_filter : Rat) (r : Result) : Bool :=
  decide (0 < r.volume_10d) && decide (min_lp_filter ≤ r.isk_per_lp)

/-- process_global: filter by volume and threshold, dedup by item name
keeping the strict-improvement winner on the sort key, rank by the sort
key descending, truncate to top_n. -/
def process_global (results : List Result) (sk : SortKey) (top_n : Nat)
    (min_lp_filter : Rat) : List Result :=
  let filtered := results.filter (viewFilter min_lp_filter)
  let unique := dedupe sk filtered
  let final_list := sortDesc (keyVal sk) (unique.map Prod.snd)
  final_list.take top_n

/-! ## Characterization of the calculator -/

lemma computeResult_some (mn it : String) (offer : Offer) (s : Snapshot)
    (h : 0 < s.avg_price ∨ 0 < s.current_sell_price) :
    computeResult mn it offer s = some
      { market := mn, item_name := it,
        isk_per_lp := if 0 < offer.lp_cost.getD 0 then
            ((if 0 < s.avg_price then s.avg_price else s.current_sell_price) *
              (offer.quantity.getD 1 : Rat) - offer.isk_cost.getD 0) /
              ((offer.lp_cost.getD 0 : Int) : Rat) else 0,
        isk_per_lp_current := if 0 < offer.lp_cost.getD 0 then
            (s.current_sell_price * (offer.quantity.getD 1 : Rat) -
              offer.isk_cost.getD 0) / ((offer.lp_cost.getD 0 : Int) : Rat) else 0,
        isk_profit := (if 0 < s.avg_price then s.avg_price else s.current_sell_price) *
            (offer.quantity.getD 1 : Rat) - offer.isk_cost.getD 0,
        lp_cost := offer.lp_cost.getD 0,
        isk_base_cost := offer.isk_cost.getD 0,
        sell_price_avg := s.avg_price,
        sell_price_low := s.lowest_price,
        sell_price_current := s.current_sell_price,
        volume_10d := s.volume_10d,
        quantity := offer.quantity.getD 1 } := by
  simp only [computeResult, if_pos h]

lemma computeResult_none (mn it : String) (offer : Offer) (s : Snapshot)
    (h : ¬ (0 < s.avg_price ∨ 0 < s.current_sell_price)) :
    computeResult mn it offer s = none := by
  simp only [computeResult, if_neg h]

/-! ## Example data used by the claims -/

/-- The spec example offer: point_cost 5000, currency_cost 1000000,
quantity 100, no extra requirements. -/
def exOffer : Offer := ⟨100, some 5000, some 1000000, some 100, []⟩

/-- The spec example snapshot: average 15000, current best sell 14000. -/
def exSnapshot : Snapshot := ⟨15000, ((14000 : Rat) : WithTop Rat), 14000, 50⟩

/-- A loss-making configuration: one unit selling around 100 ISK against
a 1000000 ISK base cost. -/
def lossOffer : Offer := ⟨200, some 5000, some 1000000, some 1, []⟩

/-- A snapshot with an average price signal but a deeply unprofitable
level. -/
def lossSnapshot : Snapshot := ⟨100, ((90 : Rat) : WithTop Rat), 0, 5⟩

/-- The same item seen in two regions with ratios 80 and 120. -/
def row80 : Result :=
  ⟨"Jita", "Item", 80, 80, 400000, 5000, 0, 4000,
    ((3900 : Rat) : WithTop Rat), 4000, 10, 100⟩

/-- The better-ratio sibling of row80. -/
def row120 : Result :=
  ⟨"Amarr", "Item", 120, 120, 600000, 5000, 0, 6000,
    ((5900 : Rat) : WithTop Rat), 6000, 12, 100⟩

/-- An offer whose required_items list holds two ISK entries: the two
is_material_required variants disagree on it. -/
def twoIskOffer : Offer :=
  ⟨300, some 100, some 0, some 1, [⟨some 58, 1000⟩, ⟨some 58, 500⟩]⟩

/-! ## Claim theorems -/

/-- C1: the Calculator produces a result iff average_price_30d > 0 or
current_best_sell_price > 0; the effective unit price is the average
when positive, else the current best sell price, and the ratio is
(effective_unit_price * quantity - currency_cost) / point_cost; on the
spec example (5000 LP, 1000000 ISK, 100 units, avg 15000, current
14000) the result has revenue 1500000, profit 500000 and ratio 100. -/
theorem calculator_effective_price_and_ratio :
    (∀ (market item : String) (offer : Offer) (s : Snapshot),
      0 < offer.lp_cost.getD 0 →
      ((computeResult market item offer s).isSome ↔
        (0 < s.avg_price ∨ 0 < s.current_sell_price)) ∧
      ∀ r, computeResult market item offer s = some r →
        r.isk_per_lp =
          ((if 0 < s.avg_price then s.avg_price else s.current_sell_price) *
              (offer.quantity.getD 1 : Rat) - offer.isk_cost.getD 0) /
            ((offer.lp_cost.getD 0 : Int) : Rat)) ∧
    (∃ r, computeResult "Jita" "Item" exOffer exSnapshot = some r ∧
      r.sell_price_avg * (r.quantity : Rat) = 1500000 ∧
      r.isk_profit = 500000 ∧ r.isk_per_lp = 100) := by
  constructor
  · intro market item offer s hlp
    constructor
    · by_cases h : 0 < s.avg_price ∨ 0 < s.current_sell_price
      · rw [computeResult_some market item offer s h]
        simp [h]
      · rw [computeResult_none market item offer s h]
        simp [h]
    · intro r hr
      by_cases h : 0 < s.avg_price ∨ 0 < s.current_sell_price
      · rw [computeResult_some market item offer s h] at hr
        have hr2 := Option.some.inj hr
        rw [← hr2, if_pos hlp]
      · rw [computeResult_none market item offer s h] at hr
        exact Option.noConfusion hr
  · have hsig : 0 < exSnapshot.avg_price ∨ 0 < exSnapshot.current_sell_price := by
      left
      norm_num [exSnapshot]
    refine ⟨_, computeResult_some "Jita" "Item" exOffer exSnapshot hsig, ?_, ?_, ?_⟩
    · norm_num [exOffer, exSnapshot]
    · norm_num [exOffer, exSnapshot]
    · norm_num [exOffer, exSnapshot]

/-- Witness for C1: the general part of the theorem applied to the spec
example offer and snapshot. -/
theorem calculator_effective_price_and_ratio_witness :
    ((computeResult "Jita" "Item" exOffer exSnapshot).isSome ↔
      (0 < exSnapshot.avg_price ∨ 0 < exSnapshot.current_sell_price)) :=
  (calculator_effective_price_and_ratio.1 "Jita" "Item" exOffer exSnapshot
    (by decide)).1

/-- C2 (code bug): on a history-fetch failure get_market_stats leaves
lowest_price at the float infinity initializer instead of the
documented zero default; the other fields of the failed portion are
zero. -/
theorem history_failure_leaves_lowest_price_infinite :
    (get_market_stats 0 none (some [])).avg_price = 0 ∧
    (get_market_stats 0 none (some [])).volume_10d = 0 ∧
    (get_market_stats 0 none (some [])).current_sell_price = 0 ∧
    (get_market_stats 0 none (some [])).lowest_price = ⊤ ∧
    (⊤ : WithTop Rat) ≠ ((0 : Rat) : WithTop Rat) := by
  refine ⟨rfl, rfl, rfl, rfl, ?_⟩
  intro h
  exact Option.noConfusion h

/-- C3 counterexample: a produced result with negative isk_per_lp is
appended to neither the per-market list nor the global list: both stay
empty for the loss-making offer. -/
theorem negative_ratio_not_retained :
    (∃ r, computeResult "Jita" "Item" lossOffer lossSnapshot = some r ∧
      r.isk_per_lp < 0) ∧
    innerStep "Jita" (fun _ => "Item") (fun _ _ => lossSnapshot) 1
      ([], []) lossOffer = ([], []) ∧
    run_market_analysis (fun _ => "Item") (fun _ _ => lossSnapshot)
      [lossOffer] [("Jita", 1)] = ([("Jita", [])], []) := by
  have hsig : 0 < lossSnapshot.avg_price ∨ 0 < lossSnapshot.current_sell_price := by
    left
    norm_num [lossSnapshot]
  have hkeep : keepOf "Jita" "Item" lossOffer lossSnapshot = [] := by
    rw [keepOf.eq_def, computeResult_some "Jita" "Item" lossOffer lossSnapshot hsig]
    have hneg : ¬ (0 : Rat) <
        (if 0 < lossOffer.lp_cost.getD 0 then
          ((if 0 < lossSnapshot.avg_price then lossSnapshot.avg_price
              else lossSnapshot.current_sell_price) *
            (lossOffer.quantity.getD 1 : Rat) - lossOffer.isk_cost.getD 0) /
            ((lossOffer.lp_cost.getD 0 : Int) : Rat) else 0) := by
      norm_num [lossOffer, lossSnapshot]
    simpa using hneg
  refine ⟨⟨_, computeResult_some "Jita" "Item" lossOffer lossSnapshot hsig, ?_⟩, ?_, ?_⟩
  · norm_num [lossOffer, lossSnapshot]
  · rw [innerStep_eq]
    simp [hkeep]
  · rw [run_market_analysis_eq]
    simp [perMarket, builtList, hkeep]

/-- C3 amended: the inner loop appends a computed result to the
per-market and the global list exactly when its isk_per_lp is strictly
positive; non-positive-ratio rows are dropped at the calculation stage. -/
theorem result_kept_iff_ratio_positive :
    ∀ (market_name : String) (item_names : Nat → String)
      (stats : Nat → Nat → Snapshot) (region_id : Nat)
      (acc : List Result × List Result) (offer : Offer),
    innerStep market_name item_names stats region_id acc offer =
      (acc.1 ++ keepOf market_name (item_names offer.type_id) offer
          (stats offer.type_id region_id),
       acc.2 ++ keepOf market_name (item_names offer.type_id) offer
          (stats offer.type_id region_id)) ∧
    (∀ r, r ∈ keepOf market_name (item_names offer.type_id) offer
        (stats offer.type_id region_id) ↔
      (computeResult market_name (item_names offer.type_id) offer
          (stats offer.type_id region_id) = some r ∧ 0 < r.isk_per_lp)) := by
  intro market_name item_names stats region_id acc offer
  refine ⟨innerStep_eq _ _ _ _ _ _, ?_⟩
  intro r
  cases hc : computeResult market_name (item_names offer.type_id) offer
      (stats offer.type_id region_id) with
  | none => simp [keepOf, hc]
  | some b =>
    simp only [keepOf, hc]
    by_cases hb : 0 < b.isk_per_lp
    · rw [if_pos hb]
      constructor
      · intro hmem
        rw [List.mem_singleton] at hmem
        subst hmem
        exact ⟨rfl, hb⟩
      · intro hr
        rw [List.mem_singleton]
        exact (Option.some.inj hr.1).symm
    · rw [if_neg hb]
      constructor
      · intro hmem
        exact absurd hmem (List.not_mem_nil r)
      · intro hr
        rw [Option.some.inj hr.1] at hb
        exact absurd hr.2 hb

/-- C9: the two material-requirement predicates disagree on an offer
whose required_items holds two ISK entries. -/
theorem material_detection_variants_differ :
    is_material_required twoIskOffer = false ∧
    test2_is_material_required twoIskOffer = true ∧
    is_material_required twoIskOffer ≠ test2_is_material_required twoIskOffer := by
  decide

/-- C10: the inner loop appends the same rows to the per-market and the
global list, so the global candidate list is the concatenation of the
per-market lists as built, in region-then-offer order. -/
theorem global_list_is_concatenation :
    ∀ (item_names : Nat → String) (stats : Nat → Nat → Snapshot)
      (offers : List Offer) (markets : List (String × Nat)),
      (run_market_analysis item_names stats offers markets).2 =
        (((run_market_analysis item_names stats offers markets).1).map
          Prod.snd).flatten ∧
      (∀ (market_name : String) (region_id : Nat)
         (acc : List Result × List Result) (offer : Offer),
        ∃ t, innerStep market_name item_names stats region_id acc offer =
          (acc.1 ++ t, acc.2 ++ t)) := by
  intro item_names stats offers markets
  constructor
  · rw [run_market_analysis_eq]
    simp only [List.map_map]
    rfl
  · intro market_name region_id acc offer
    exact ⟨_, innerStep_eq _ _ _ _ _ _⟩

lemma mem_sellPrices (data : List Order) (q : Rat) :
    q ∈ sellPrices data ↔ ∃ order ∈ data, order.price = some q ∧ 0 < q := by
  rw [sellPrices, List.mem_filterMap]
  constructor
  · rintro ⟨order, hmem, hf⟩
    cases hp : order.price with
    | none =>
      simp only [hp] at hf
      exact Option.noConfusion hf
    | some p =>
      simp only [hp] at hf
      by_cases h0 : 0 < p
      · rw [if_pos h0] at hf
        have hq := Option.some.inj hf
        subst hq
        exact ⟨order, hmem, hp, h0⟩
      · rw [if_neg h0] at hf
        exact Option.noConfusion hf
  · rintro ⟨order, hmem, hp, h0⟩
    refine ⟨order, hmem, ?_⟩
    simp only [hp]
    rw [if_pos h0]

lemma process_global_subset (sk : SortKey) (top_n : Nat) (filt : Rat)
    (rs : List Result) (r : Result) (h : r ∈ process_global rs sk top_n filt) :
    r ∈ rs ∧ 0 < r.volume_10d ∧ filt ≤ r.isk_per_lp := by
  simp only [process_global] at h
  have h1 : r ∈ sortDesc (keyVal sk)
      ((dedupe sk (rs.filter (viewFilter filt))).map Prod.snd) :=
    List.take_subset _ _ h
  have h2 : r ∈ (dedupe sk (rs.filter (viewFilter filt))).map Prod.snd :=
    (sortDesc_perm (keyVal sk) _).mem_iff.mp h1
  obtain ⟨p, hp, hpr⟩ := List.mem_map.mp h2
  have h3 : r ∈ rs.filter (viewFilter filt) := hpr ▸ mem_dedupe sk _ p hp
  have h4 := List.mem_filter.mp h3
  have h5 := h4.2
  rw [viewFilter, Bool.and_eq_true, decide_eq_true_eq, decide_eq_true_eq] at h5
  exact ⟨h4.1, h5.1, h5.2⟩

/-- C4: dedup groups by item_name, keeping per group exactly the
first-seen row among those maximizing the sort key (replacement only on
strict improvement); a singleton group keeps its only row; ratios 80
and 120 for one item dedup to the 120 row. -/
theorem dedupe_keeps_first_seen_max :
    (∀ (sk : SortKey) (rs : List Result) (name : String) (r : Result),
      lookupA name (dedupe sk rs) = some r →
      r ∈ rs ∧ r.item_name = name ∧
      (∀ x ∈ rs, x.item_name = name → keyVal sk x ≤ keyVal sk r) ∧
      ∃ l₁ l₂, rs.filter (fun x => x.item_name == name) = l₁ ++ r :: l₂ ∧
        (∀ x ∈ l₁, keyVal sk x < keyVal sk r) ∧
        (∀ x ∈ l₂, keyVal sk x ≤ keyVal sk r)) ∧
    (∀ (sk : SortKey) (rs : List Result) (name : String),
      (∃ r, lookupA name (dedupe sk rs) = some r) ↔
        ∃ r ∈ rs, r.item_name = name) ∧
    (∀ (sk : SortKey) (rs : List Result),
      ((dedupe sk rs).map Prod.fst).Nodup) ∧
    (∀ (sk : SortKey) (rs : List Result) (name : String) (r : Result),
      rs.filter (fun x => x.item_name == name) = [r] →
      lookupA name (dedupe sk rs) = some r) ∧
    lookupA "Item" (dedupe SortKey.ilp [row80, row120]) = some row120 := by
  refine ⟨?_, ?_, ?_, ?_, ?_⟩
  · intro sk rs name r h
    rw [lookupA_dedupe] at h
    obtain ⟨l₁, l₂, hdec, hl₁, hl₂⟩ := bestOf_spec sk _ r h
    have hrmem : r ∈ rs.filter (fun x => x.item_name == name) := by
      rw [hdec]
      simp
    have hrs : r ∈ rs := (List.mem_filter.mp hrmem).1
    have hname : r.item_name = name := by
      simpa using (List.mem_filter.mp hrmem).2
    refine ⟨hrs, hname, ?_, l₁, l₂, hdec, hl₁, hl₂⟩
    intro x hx hxname
    have hxf : x ∈ rs.filter (fun x => x.item_name == name) :=
      List.mem_filter.mpr ⟨hx, by simpa using hxname⟩
    rw [hdec] at hxf
    rcases List.mem_append.mp hxf with h1 | h1
    · exact le_of_lt (hl₁ x h1)
    · rcases List.mem_cons.mp h1 with h2 | h2
      · rw [h2]
      · exact hl₂ x h2
  · intro sk rs name
    constructor
    · rintro ⟨r, hr⟩
      rw [lookupA_dedupe] at hr
      obtain ⟨l₁, l₂, hdec, -, -⟩ := bestOf_spec sk _ r hr
      have hrmem : r ∈ rs.filter (fun x => x.item_name == name) := by
        rw [hdec]
        simp
      exact ⟨r, (List.mem_filter.mp hrmem).1,
        by simpa using (List.mem_filter.mp hrmem).2⟩
    · rintro ⟨r, hrs, hname⟩
      rw [lookupA_dedupe]
      refine bestOf_ne_none sk _ ?_
      intro hnil
      have hrmem : r ∈ rs.filter (fun x => x.item_name == name) :=
        List.mem_filter.mpr ⟨hrs, by simpa using hname⟩
      rw [hnil] at hrmem
      exact absurd hrmem (List.not_mem_nil r)
  · intro sk rs
    exact dedupe_keys_nodup sk rs
  · intro sk rs name r h
    rw [lookupA_dedupe, h]
    rfl
  · decide

/-- Witness for C4: the first part applied to the 80/120 example. -/
theorem dedupe_keeps_first_seen_max_witness :
    row120 ∈ [row80, row120] ∧ row120.item_name = "Item" :=
  ⟨(dedupe_keeps_first_seen_max.1 SortKey.ilp [row80, row120] "Item" row120
      (by decide)).1,
   (dedupe_keeps_first_seen_max.1 SortKey.ilp [row80, row120] "Item" row120
      (by decide)).2.1⟩

/-- C5: the offer filter accepts exactly the offers with a present,
nonzero lp_cost whose required_items mention nothing but the base
currency (type id 58); an empty required_items list passes; output is
the accepted subset in input order. -/
theorem filter_offers_characterization :
    ∀ offers : List Offer,
      filter_offers offers = offers.filter acceptOffer ∧
      (filter_offers offers).Sublist offers ∧
      (∀ o : Offer, o ∈ filter_offers offers ↔
        (o ∈ offers ∧ (∃ c, o.lp_cost = some c ∧ c ≠ 0) ∧
          ∀ item ∈ o.required_items, item.type_id = some TYPE_ID_ISK)) ∧
      (∀ o : Offer, o ∈ offers → o.required_items = [] →
        (∃ c, o.lp_cost = some c ∧ c ≠ 0) → o ∈ filter_offers offers) := by
  intro offers
  have hmem : ∀ o : Offer, o ∈ filter_offers offers ↔
      (o ∈ offers ∧ (∃ c, o.lp_cost = some c ∧ c ≠ 0) ∧
        ∀ item ∈ o.required_items, item.type_id = some TYPE_ID_ISK) := by
    intro o
    rw [filter_offers_eq_filter, List.mem_filter, acceptOffer_iff]
  refine ⟨filter_offers_eq_filter offers, ?_, hmem, ?_⟩
  · rw [filter_offers_eq_filter]
    exact List.filter_sublist offers
  · intro o hmem2 hreq hlp
    refine (hmem o).mpr ⟨hmem2, hlp, ?_⟩
    intro item hitem
    rw [hreq] at hitem
    exact absurd hitem (List.not_mem_nil item)

/-- Witness for C5: the example offer (no extra requirements, lp_cost
5000) is accepted from a singleton input list. -/
theorem filter_offers_characterization_witness :
    exOffer ∈ filter_offers [exOffer] :=
  (filter_offers_characterization [exOffer]).2.2.2 exOffer
    (by decide) rfl ⟨5000, rfl, by decide⟩

/-- C6: every row of a global view comes from the input result list
(hence, run on the analysis output, from some per-market list) and has
positive recent volume and a ratio at or above the view threshold; the
liquidity thresholds are the positive constants 1000 and 2000 and the
unrestricted view uses 0. -/
theorem global_views_subset_and_thresholds :
    (∀ (sk : SortKey) (top_n : Nat) (filt : Rat) (rs : List Result)
       (r : Result),
      r ∈ process_global rs sk top_n filt →
      r ∈ rs ∧ 0 < r.volume_10d ∧ filt ≤ r.isk_per_lp) ∧
    (∀ (item_names : Nat → String) (stats : Nat → Nat → Snapshot)
       (offers : List Offer) (markets : List (String × Nat))
       (sk : SortKey) (top_n : Nat) (filt : Rat) (r : Result),
      r ∈ process_global
          (run_market_analysis item_names stats offers markets).2 sk top_n filt →
      ∃ pm ∈ (run_market_analysis item_names stats offers markets).1, r ∈ pm.2) ∧
    MIN_ISK_PER_LP_FILTER_LOW = 1000 ∧ MIN_ISK_PER_LP_FILTER_HIGH = 2000 ∧
    (0 : Rat) < MIN_ISK_PER_LP_FILTER_LOW ∧
    MIN_ISK_PER_LP_FILTER_LOW < MIN_ISK_PER_LP_FILTER_HIGH := by
  refine ⟨process_global_subset, ?_, rfl, rfl, by norm_num [MIN_ISK_PER_LP_FILTER_LOW],
    by norm_num [MIN_ISK_PER_LP_FILTER_LOW, MIN_ISK_PER_LP_FILTER_HIGH]⟩
  intro item_names stats offers markets sk top_n filt r h
  have h1 := (process_global_subset sk top_n filt _ r h).1
  rw [run_market_analysis_eq] at h1 ⊢
  obtain ⟨l, hl, hrl⟩ := List.mem_flatten.mp h1
  obtain ⟨m, hm, hml⟩ := List.mem_map.mp hl
  refine ⟨(m.1, perMarket item_names stats offers m), ?_, ?_⟩
  · exact List.mem_map.mpr ⟨m, hm, rfl⟩
  · rw [hml]
    exact hrl

/-- Witness for C6: the example row retrieved from a one-row view. -/
theorem global_views_subset_and_thresholds_witness :
    row120 ∈ [row120] ∧ 0 < row120.volume_10d ∧
      (0 : Rat) ≤ row120.isk_per_lp :=
  global_views_subset_and_thresholds.1 SortKey.ilp 25 0 [row120] row120
    (by decide)

/-- C8: ranking is a pure function of the input list (identical frozen
inputs give identical output), the sort orders keys descending, and it
is stable: rows with equal key values keep their input order. -/
theorem ranking_deterministic_and_stable :
    (∀ (rs₁ rs₂ : List Result) (sk : SortKey) (top_n : Nat) (filt : Rat),
      rs₁ = rs₂ →
      process_global rs₁ sk top_n filt = process_global rs₂ sk top_n filt) ∧
    (∀ (key : Result → Rat) (l : List Result),
      (sortDesc key l).Pairwise (fun a b => key b ≤ key a)) ∧
    (∀ (key : Result → Rat) (l : List Result) (v : Rat),
      (sortDesc key l).filter (fun x => key x == v) =
        l.filter (fun x => key x == v)) := by
  refine ⟨?_, sortDesc_pairwise, sortDesc_filter⟩
  intro rs₁ rs₂ sk top_n filt h
  rw [h]

/-- Witness for C8: determinism applied to a concrete one-row input. -/
theorem ranking_deterministic_and_stable_witness :
    process_global [row80] SortKey.ilp 25 0 =
      process_global [row80] SortKey.ilp 25 0 :=
  ranking_deterministic_and_stable.1 [row80] [row80] SortKey.ilp 25 0 rfl

/-- Concrete history data for the C7 witness: one record inside the
30-day window, one outside. -/
def wHd : List Day := [⟨95, 10, 8, 3⟩, ⟨50, 99, 1, 7⟩]

/-- Concrete order-book data for the C7 witness: one positive-price
sell order, one priceless entry, one zero-price entry. -/
def wData : List Order := [⟨some 5⟩, ⟨none⟩, ⟨some 0⟩]

/-- C7: on the success path, avg_price is the mean of the daily
averages inside the 30-day window (0 when the window is empty),
lowest_price is the minimum daily low in that window, volume_10d is the
volume sum of the 10-day window, and current_sell_price is the minimum
of the positive sell-order prices (0 when there are none). -/
theorem market_stats_aggregation :
    ∀ (now : Int) (hd : List Day) (data : List Order),
      (hd.filter (inWindow30 now) ≠ [] →
        (get_market_stats now (some hd) (some data)).avg_price =
          ((hd.filter (inWindow30 now)).map Day.average).sum /
            ((hd.filter (inWindow30 now)).length : Rat)) ∧
      (hd.filter (inWindow30 now) = [] →
        (get_market_stats now (some hd) (some data)).avg_price = 0) ∧
      (hd.filter (inWindow30 now) ≠ [] →
        (get_market_stats now (some hd) (some data)).lowest_price =
          ((hd.filter (inWindow30 now)).map Day.lowest).minimum) ∧
      (get_market_stats now (some hd) (some data)).volume_10d =
        ((hd.filter (inWindow10 now)).map Day.volume).sum ∧
      (∀ q : Rat, q ∈ sellPrices data ↔
        ∃ order ∈ data, order.price = some q ∧ 0 < q) ∧
      (sellPrices data ≠ [] →
        (get_market_stats now (some hd) (some data)).current_sell_price ∈
          sellPrices data ∧
        ∀ q ∈ sellPrices data,
          (get_market_stats now (some hd) (some data)).current_sell_price ≤ q) ∧
      (sellPrices data = [] →
        (get_market_stats now (some hd) (some data)).current_sell_price = 0) := by
  intro now hd data
  refine ⟨?_, ?_, ?_, ?_, mem_sellPrices data, ?_, ?_⟩
  · intro hne
    have h : (hd.filter (inWindow30 now)).map Day.average ≠ [] := by
      intro hm
      exact hne (List.map_eq_nil_iff.mp hm)
    simp only [get_market_stats, historyScan_eq]
    rw [if_pos h]
    rw [List.length_map]
  · intro hemp
    have h : ¬ (hd.filter (inWindow30 now)).map Day.average ≠ [] := by
      rw [hemp]
      simp
    simp only [get_market_stats, historyScan_eq]
    rw [if_neg h]
  · intro hne
    have h : (hd.filter (inWindow30 now)).map Day.average ≠ [] := by
      intro hm
      exact hne (List.map_eq_nil_iff.mp hm)
    simp only [get_market_stats, historyScan_eq]
    rw [if_pos h]
  · by_cases h : (hd.filter (inWindow30 now)).map Day.average ≠ []
    · simp only [get_market_stats, historyScan_eq]
      rw [if_pos h]
    · simp only [get_market_stats, historyScan_eq]
      rw [if_neg h]
  · intro hsp
    obtain ⟨p, ps, hcons⟩ := List.exists_cons_of_ne_nil hsp
    simp only [get_market_stats, hcons]
    exact ⟨foldl_min_mem ps p, foldl_min_le ps p⟩
  · intro hsp
    simp only [get_market_stats, hsp]

/-- Witness for C7: the window-nonempty conclusions at concrete data. -/
theorem market_stats_aggregation_witness :
    (get_market_stats 100 (some wHd) (some wData)).avg_price =
      ((wHd.filter (inWindow30 100)).map Day.average).sum /
        ((wHd.filter (inWindow30 100)).length : Rat) ∧
    (get_market_stats 100 (some wHd) (some wData)).current_sell_price ∈
      sellPrices wData :=
  ⟨(market_stats_aggregation 100 wHd wData).1 (by decide),
   ((market_stats_aggregation 100 wHd wData).2.2.2.2.2.1 (by decide)).1⟩

end EveLP
